import Mathlib

/-!
Shallow embedding of the Scalar Replacement of Aggregates (SROA) MIR pass
from `compiler/rustc_mir_transform/src/sroa.rs`, together with theorems
settling the specification claims about it.

The embedding models the fragment of the MIR data model that the pass
inspects or modifies: locals, places (a base local plus a projection list),
operands, rvalues, statement kinds, terminators, local declarations and
variable debug info.  The three phases of the pass — `escaping_locals`,
`compute_flattening` and `replace_flattened_locals` — are translated as
executable functions.  The MIR visitor framework is inlined: each override
of the Rust visitors becomes an explicit traversal equation, and the
default `super_*` methods become the generic traversal cases.

Modelling notes, faithful to the source:
* MIR's `ProjectionElem::Field(index, ty)` caches the field type next to the
  index; in well-formed bodies the cache always equals the type computed
  from the local declarations, so the embedding stores only the index and
  recomputes the type from the declarations (`placeTy`).
* `MirPatch.add_statement` inserts the staged statements immediately before
  the statement at the staging location, in staging order; since the pass
  only ever stages statements at the location currently being visited, the
  patch application is modelled per statement as `inserted ++ [statement]`.
* The `assert!(!self.all_dead_locals.contains(*local))` in the rewriter's
  `visit_local` is modelled by collecting, in `visited`, every local that
  reaches `visit_local` through the generic traversal; the assertion never
  firing is the statement that this collection avoids the dead set.
-/

/-- Static types, as far as the pass inspects them: base (scalar) types,
tuple/struct types with positional fields, unions, enums (variant lists),
references/pointers and arrays. -/
inductive Ty where
  | base (n : Nat)
  | tuple (fs : List Ty)
  | tunion (fs : List Ty)
  | tenum (vs : List (List Ty))
  | ref (t : Ty)
  | array (t : Ty)

instance : Inhabited Ty := ⟨Ty.base 0⟩

/-- Mirrors `Ty::is_union`. -/
def Ty.isUnion : Ty → Bool
  | .tunion _ => true
  | _ => false

/-- Mirrors `Ty::is_enum`. -/
def Ty.isEnum : Ty → Bool
  | .tenum _ => true
  | _ => false

/-- A base (scalar) type, such as an integer type; used only by the
well-formedness predicate to state that index operands are integers. -/
def Ty.isBase : Ty → Bool
  | .base _ => true
  | _ => false

/-- A MIR local, identified by its index into the declaration table. -/
abbrev Local := Nat

/-- One projection step of a place (`ProjectionElem`).  The field step
stores only the field index; see the modelling notes for the cached type. -/
inductive PlaceElem where
  | field (i : Nat)
  | deref
  | index (l : Local)
  | downcast (v : Nat)
deriving DecidableEq

/-- A place: a base local plus a projection list (`Place`).  The base local
is called `local` in the source; `base` here because `local` is a keyword. -/
structure Place where
  base : Local
  projection : List PlaceElem
deriving DecidableEq

instance : Inhabited Place := ⟨⟨0, []⟩⟩

/-- Mirrors `Place::is_indirect`: the projection contains a dereference. -/
def Place.isIndirect (p : Place) : Bool :=
  p.projection.contains PlaceElem.deref

/-- Mirrors `Place::as_local`: the place is a bare local. -/
def Place.asLocal (p : Place) : Option Local :=
  match p.projection with
  | [] => some p.base
  | _ => none

/-- Mirrors `Place::project_deeper`: append projection steps. -/
def Place.projectDeeper (p : Place) (proj : List PlaceElem) : Place :=
  ⟨p.base, p.projection ++ proj⟩

/-- Mirrors `Place::from(local)`. -/
def Place.ofLocal (l : Local) : Place := ⟨l, []⟩

/-- An operand (`Operand`): copy or move of a place, or a literal constant
(the constant's payload is opaque to the pass). -/
inductive Operand where
  | copy (p : Place)
  | move (p : Place)
  | const (c : Nat)
deriving DecidableEq

/-- Rvalues, as far as the pass distinguishes them: `Ref`/`AddressOf`
(treated identically by the pass, so merged), `Use`, `Aggregate`,
`Discriminant` (a representative rvalue containing a raw place), and
`other` (a representative rvalue containing operands, e.g. a binary op). -/
inductive Rvalue where
  | use (op : Operand)
  | ref (p : Place)
  | aggregate (ops : List Operand)
  | discriminant (p : Place)
  | other (ops : List Operand)
deriving DecidableEq

/-- Statement kinds, as far as the pass distinguishes them.
`setDiscriminant` stands for the generic place-containing statements. -/
inductive StatementKind where
  | assign (p : Place) (r : Rvalue)
  | storageLive (l : Local)
  | storageDead (l : Local)
  | deinit (p : Place)
  | setDiscriminant (p : Place) (v : Nat)
  | nop
deriving DecidableEq

instance : Inhabited StatementKind := ⟨StatementKind.nop⟩

/-- Terminators, as far as the pass distinguishes them. -/
inductive Terminator where
  | goto (target : Nat)
  | switchInt (discr : Operand) (targets : List Nat)
  | ret
  | drop (p : Place) (target : Nat)
  | dropAndReplace (p : Place) (value : Operand) (target : Nat)
  | call (func : Operand) (args : List Operand) (dest : Place) (target : Option Nat)
deriving DecidableEq

instance : Inhabited Terminator := ⟨Terminator.ret⟩

/-- A basic block: statements followed by a terminator. -/
structure BasicBlockData where
  statements : List StatementKind
  terminator : Terminator
deriving DecidableEq

instance : Inhabited BasicBlockData := ⟨⟨[], Terminator.ret⟩⟩

/-- A local declaration (`LocalDecl`): the static type plus the non-type
metadata the pass copies (`mutability`, source info) or resets (`user_ty`). -/
structure LocalDecl where
  ty : Ty
  mutability : Bool
  sourceInfo : Nat
  userTy : Option Nat

instance : Inhabited LocalDecl := ⟨⟨Ty.base 0, false, 0, none⟩⟩

/-- Mirrors `VarDebugInfoFragment`. -/
structure VarDebugInfoFragment where
  projection : List PlaceElem
  contents : Place

/-- Mirrors `VarDebugInfoContents`. -/
inductive VarDebugInfoContents where
  | place (p : Place)
  | const (c : Nat)
  | composite (ty : Ty) (fragments : List VarDebugInfoFragment)

/-- Mirrors `VarDebugInfo`. -/
structure VarDebugInfo where
  name : Nat
  value : VarDebugInfoContents

/-- A function body, as far as the pass reads and rewrites it.  Locals
`0` (the return place) through `argCount` are the return slot and the
parameters, matching `RETURN_PLACE..=Local::from_usize(body.arg_count)`. -/
structure Body where
  localDecls : List LocalDecl
  argCount : Nat
  basicBlocks : List BasicBlockData
  varDebugInfo : List VarDebugInfo

/-! ## Place types

`Place::ty` folds `PlaceTy::projection_ty` over the projection.  The total
version `tyProj` leaves the type unchanged on a mismatched step (the source
would have panicked earlier on such a body); the strict version
`tyProjStrict` rejects mismatched steps and is used by the well-formedness
predicate. -/

/-- One step of `PlaceTy::projection_ty`, total version. -/
def tyProj : Ty → PlaceElem → Ty
  | .tuple fs, .field i => fs.getD i (Ty.base 0)
  | .tunion fs, .field i => fs.getD i (Ty.base 0)
  | .ref t, .deref => t
  | .array t, .index _ => t
  | .tenum vs, .downcast v => .tuple (vs.getD v [])
  | t, _ => t

/-- Mirrors `Place::ty(local_decls, tcx).ty`. -/
def placeTy (decls : List LocalDecl) (p : Place) : Ty :=
  p.projection.foldl tyProj (decls.getD p.base default).ty

/-- One step of `PlaceTy::projection_ty`, strict version: `none` when the
step does not apply to the type. -/
def tyProjStrict : Ty → PlaceElem → Option Ty
  | .tuple fs, .field i => fs.get? i
  | .tunion fs, .field i => fs.get? i
  | .ref t, .deref => some t
  | .array t, .index _ => some t
  | .tenum vs, .downcast v => (vs.get? v).map Ty.tuple
  | _, _ => none

/-- Strict place typing: the base local is declared and every projection
step applies to the type reached so far. -/
def placeTyStrict (decls : List LocalDecl) (p : Place) : Option Ty :=
  match decls.get? p.base with
  | none => none
  | some d => p.projection.foldlM tyProjStrict d.ty

/-- The locals appearing as `Index` operands inside a projection; the
generic place visitor visits exactly these besides the base local. -/
def projIndexLocals (proj : List PlaceElem) : List Local :=
  proj.filterMap fun e =>
    match e with
    | .index l => some l
    | _ => none

/-! ## Escape analysis (`escaping_locals` and `EscapeVisitor`)

The Rust visitor only ever inserts into its bit set and never reads it
during the traversal, so it is modelled order-independently: each visit
equation returns the list of locals it inserts, and `escapingLocals`
concatenates the contributions. -/

/-- The escape visitor's `visit_place` override: a projection beginning
with a field step is skipped entirely; otherwise the generic `super_place`
visits the base local and the projection's index locals. -/
def escVisitPlace (p : Place) : List Local :=
  match p.projection with
  | .field _ :: _ => []
  | _ => p.base :: projIndexLocals p.projection

/-- Generic operand visit: copy and move visit their place. -/
def escVisitOperand : Operand → List Local
  | .copy p => escVisitPlace p
  | .move p => escVisitPlace p
  | .const _ => []

/-- The generic `super_rvalue`: visit every contained place or operand. -/
def escSuperRvalue : Rvalue → List Local
  | .use op => escVisitOperand op
  | .ref p => escVisitPlace p
  | .aggregate ops => ops.flatMap escVisitOperand
  | .discriminant p => escVisitPlace p
  | .other ops => ops.flatMap escVisitOperand

/-- The escape visitor's `visit_rvalue` override: a reference or address-of
of a non-indirect place marks the place's base local escaping. -/
def escVisitRvalue (rv : Rvalue) : List Local :=
  match rv with
  | .ref p => if p.isIndirect then escSuperRvalue rv else [p.base]
  | _ => escSuperRvalue rv

/-- The escape visitor's `visit_assign` override: an `Aggregate` or `Use`
rvalue assigned to a bare local visits only the rvalue (the rewriter
expands these patterns); otherwise the generic `super_assign` visits the
destination place and then the rvalue. -/
def escVisitAssign (lv : Place) (rv : Rvalue) : List Local :=
  match lv.asLocal, rv with
  | some _, .aggregate _ => escVisitRvalue rv
  | some _, .use _ => escVisitRvalue rv
  | _, _ => escVisitPlace lv ++ escVisitRvalue rv

/-- The escape visitor's `visit_statement` override: storage markers and
`Deinit` are ignored (the rewriter expands them); the rest is generic. -/
def escVisitStatement : StatementKind → List Local
  | .assign p r => escVisitAssign p r
  | .storageLive _ => []
  | .storageDead _ => []
  | .deinit _ => []
  | .setDiscriminant p _ => escVisitPlace p
  | .nop => []

/-- The generic `super_terminator`: visit every contained place and
operand. -/
def escSuperTerminator : Terminator → List Local
  | .goto _ => []
  | .switchInt d _ => escVisitOperand d
  | .ret => []
  | .drop p _ => escVisitPlace p
  | .dropAndReplace p v _ => escVisitPlace p ++ escVisitOperand v
  | .call f args dest _ =>
      escVisitOperand f ++ args.flatMap escVisitOperand ++ escVisitPlace dest

/-- The escape visitor's `visit_terminator` override: `Drop` and
`DropAndReplace` of a non-indirect place mark the place's base local
escaping (and skip the rest of the terminator); otherwise generic. -/
def escVisitTerminator (t : Terminator) : List Local :=
  match t with
  | .drop p _ => if p.isIndirect then escSuperTerminator t else [p.base]
  | .dropAndReplace p _ _ => if p.isIndirect then escSuperTerminator t else [p.base]
  | _ => escSuperTerminator t

/-- The locals whose declared type is a union or an enum, from the scan
over `body.local_decls().iter_enumerated()`. -/
def unionEnumLocals (decls : List LocalDecl) : List Local :=
  (List.range decls.length).filter fun l =>
    match decls.get? l with
    | some d => d.ty.isUnion || d.ty.isEnum
    | none => false

/-- Mirrors `escaping_locals`: the return place and the parameters, the
union- and enum-typed locals, and every local inserted by the visitor.
Membership in this list is membership in the source's bit set. -/
def escapingLocals (body : Body) : List Local :=
  List.range (body.argCount + 1) ++
  unionEnumLocals body.localDecls ++
  body.basicBlocks.flatMap fun bb =>
    bb.statements.flatMap escVisitStatement ++ escVisitTerminator bb.terminator

/-! ## Flattening planner (`compute_flattening` and `PreFlattenVisitor`)

`PreFlattenVisitor` overrides only `visit_place`, so the traversal reduces
to the list of places the default visitor reaches, in program order. -/

/-- The places contained in an operand, in visiting order. -/
def placesOfOperand : Operand → List Place
  | .copy p => [p]
  | .move p => [p]
  | .const _ => []

/-- The places contained in an rvalue, in visiting order. -/
def placesOfRvalue : Rvalue → List Place
  | .use op => placesOfOperand op
  | .ref p => [p]
  | .aggregate ops => ops.flatMap placesOfOperand
  | .discriminant p => [p]
  | .other ops => ops.flatMap placesOfOperand

/-- The places contained in a statement, in visiting order (for an
assignment, the destination before the rvalue, as in `super_assign`). -/
def placesOfStatement : StatementKind → List Place
  | .assign p r => p :: placesOfRvalue r
  | .storageLive _ => []
  | .storageDead _ => []
  | .deinit p => [p]
  | .setDiscriminant p _ => [p]
  | .nop => []

/-- The places contained in a terminator, in visiting order. -/
def placesOfTerminator : Terminator → List Place
  | .goto _ => []
  | .switchInt d _ => placesOfOperand d
  | .ret => []
  | .drop p _ => [p]
  | .dropAndReplace p v _ => p :: placesOfOperand v
  | .call f args dest _ =>
      placesOfOperand f ++ args.flatMap placesOfOperand ++ [dest]

/-- Every place of every basic block, in program order — exactly the
places `visit_place` receives when iterating `body.basic_blocks`. -/
def placesOfBody (body : Body) : List Place :=
  body.basicBlocks.flatMap fun bb =>
    bb.statements.flatMap placesOfStatement ++ placesOfTerminator bb.terminator

/-- A key of the decomposition plan: a borrowed place reference, i.e. a
base local plus a projection slice (always a single field step). -/
abbrev PlaceKey := Local × List PlaceElem

/-- The planner's state: the (extended) declaration table and the insertion
ordered map from place keys to fresh locals (`ReplacementMap`). -/
structure PlanState where
  localDecls : List LocalDecl
  map : List (PlaceKey × Local)

/-- Association lookup in the insertion-ordered map. -/
def lookupKey (map : List (PlaceKey × Local)) (k : PlaceKey) : Option Local :=
  match map with
  | [] => none
  | kv :: rest => if kv.1 = k then some kv.2 else lookupKey rest k

/-- Mirrors `PreFlattenVisitor::create_place`: skip escaping bases; if the
key is vacant, push a fresh local whose type is the type of the one-field
sub-path and whose other metadata is cloned from the base local's
declaration (with `user_ty` reset), and insert the mapping. -/
def createPlace (escaping : List Local) (st : PlanState) (k : PlaceKey) : PlanState :=
  if escaping.contains k.1 then st
  else
    match lookupKey st.map k with
    | some _ => st
    | none =>
        let baseDecl := st.localDecls.getD k.1 default
        let ty := placeTy st.localDecls ⟨k.1, k.2⟩
        { localDecls := st.localDecls ++ [{ baseDecl with ty := ty, userTy := none }],
          map := st.map ++ [(k, st.localDecls.length)] }

/-- Mirrors `PreFlattenVisitor::visit_place`: for a projection beginning
with a field step, plan the base local plus exactly that first step. -/
def planVisitPlace (escaping : List Local) (st : PlanState) (p : Place) : PlanState :=
  match p.projection with
  | .field i :: _ => createPlace escaping st (p.base, [PlaceElem.field i])
  | _ => st

/-- Mirrors `compute_flattening`: fold the planner over every place of the
body in program order, starting from the body's declaration table. -/
def computeFlattening (body : Body) (escaping : List Local) : PlanState :=
  (placesOfBody body).foldl (planVisitPlace escaping) ⟨body.localDecls, []⟩

/-! ## Rewriter (`replace_flattened_locals` and `ReplacementVisitor`) -/

/-- The base locals of the plan's keys: `all_dead_locals` as initialised. -/
def deadBases (map : List (PlaceKey × Local)) : List Local :=
  map.map fun kv => kv.1.1

/-- The fragment list of one local: the `(projection, new local)` pairs of
its plan keys, in plan order (the `fragments` index vector). -/
def fragmentsOf (map : List (PlaceKey × Local)) (l : Local) : List (List PlaceElem × Local) :=
  (map.filter fun kv => kv.1.1 == l).map fun kv => (kv.1.2, kv.2)

/-- The fragment entry of one local: `some` exactly when the local has at
least one plan key, as with `Option<Vec<_>>` in the source. -/
def fragmentsOpt (map : List (PlaceKey × Local)) (l : Local) :
    Option (List (List PlaceElem × Local)) :=
  let fs := fragmentsOf map l
  if fs.isEmpty then none else some fs

/-- Mirrors `ReplacementVisitor::replace_place`: when the projection begins
with a field step whose one-step prefix is a plan key, rebase the remaining
steps onto the fresh local. -/
def replacePlace (map : List (PlaceKey × Local)) (p : Place) : Option Place :=
  match p.projection with
  | .field i :: rest =>
      match lookupKey map (p.base, [PlaceElem.field i]) with
      | some l => some ⟨l, rest⟩
      | none => none
  | _ => none

/-- The rewriter's `visit_place`: replace when possible; otherwise the
generic `super_place` visits the base local and the index locals (these are
the locals checked by the `visit_local` assertion, returned as the second
component). -/
def rwVisitPlace (map : List (PlaceKey × Local)) (p : Place) : Place × List Local :=
  match replacePlace map p with
  | some q => (q, [])
  | none => (p, p.base :: projIndexLocals p.projection)

/-- Generic operand rewrite. -/
def rwVisitOperand (map : List (PlaceKey × Local)) : Operand → Operand × List Local
  | .copy p => let r := rwVisitPlace map p; (.copy r.1, r.2)
  | .move p => let r := rwVisitPlace map p; (.move r.1, r.2)
  | .const c => (.const c, [])

/-- Generic rewrite of an operand list. -/
def rwVisitOperands (map : List (PlaceKey × Local)) (ops : List Operand) :
    List Operand × List Local :=
  (ops.map fun o => (rwVisitOperand map o).1, ops.flatMap fun o => (rwVisitOperand map o).2)

/-- Generic rvalue rewrite (`super_rvalue`). -/
def rwVisitRvalue (map : List (PlaceKey × Local)) : Rvalue → Rvalue × List Local
  | .use op => let r := rwVisitOperand map op; (.use r.1, r.2)
  | .ref p => let r := rwVisitPlace map p; (.ref r.1, r.2)
  | .aggregate ops => let r := rwVisitOperands map ops; (.aggregate r.1, r.2)
  | .discriminant p => let r := rwVisitPlace map p; (.discriminant r.1, r.2)
  | .other ops => let r := rwVisitOperands map ops; (.other r.1, r.2)

/-- The result of the rewriter's `visit_statement` on one statement:
the statements staged into the patch at this location (inserted before the
statement), the statement after in-place mutation, the locals removed from
`all_dead_locals` (the literal-constant rule), and the locals reaching the
`visit_local` assertion through the generic traversal. -/
structure StmtRw where
  inserted : List StatementKind
  stmt : StatementKind
  removedDead : List Local
  visited : List Local
deriving DecidableEq

/-- The generic `super_statement` fallback of the rewriter. -/
def rwGenericStatement (map : List (PlaceKey × Local)) (s : StatementKind) :
    StatementKind × List Local :=
  match s with
  | .assign p r =>
      let rp := rwVisitPlace map p
      let rr := rwVisitRvalue map r
      (.assign rp.1 rr.1, rp.2 ++ rr.2)
  | .deinit p => let rp := rwVisitPlace map p; (.deinit rp.1, rp.2)
  | .setDiscriminant p v => let rp := rwVisitPlace map p; (.setDiscriminant rp.1 v, rp.2)
  | s => (s, [])

/-- Mirrors `ReplacementVisitor::visit_statement`, rule by rule: storage
markers and `Deinit` of a local with fragments are expanded per fragment
and nopped; an aggregate assigned to a local with fragments becomes one
`Use` of the matching operand per fragment (operands staged as-is); a
constant assigned to a local with fragments stages one projected move per
fragment, keeps the original statement and removes the local from the dead
set; a copy/move assigned to a local with fragments stages one deepened
copy/move per fragment and is nopped; everything else is generic. -/
def rwVisitStatement (map : List (PlaceKey × Local)) (s : StatementKind) : StmtRw :=
  let gen : StmtRw :=
    let g := rwGenericStatement map s
    ⟨[], g.1, [], g.2⟩
  match s with
  | .storageLive l =>
      match fragmentsOpt map l with
      | some fs => ⟨fs.map fun f => .storageLive f.2, .nop, [], []⟩
      | none => ⟨[], s, [], []⟩
  | .storageDead l =>
      match fragmentsOpt map l with
      | some fs => ⟨fs.map fun f => .storageDead f.2, .nop, [], []⟩
      | none => ⟨[], s, [], []⟩
  | .deinit p =>
      match p.asLocal with
      | some l =>
          match fragmentsOpt map l with
          | some fs => ⟨fs.map fun f => .deinit (Place.ofLocal f.2), .nop, [], []⟩
          | none => gen
      | none => gen
  | .assign p r =>
      match r with
      | .aggregate ops =>
          match p.asLocal with
          | some l =>
              match fragmentsOpt map l with
              | some fs =>
                  -- a stored projection that is not one field step hits the
                  -- source's `bug!()`, and an operand index out of range hits
                  -- the panicking index; both are impossible on plans the
                  -- pass computes, and are modelled as a nop and a default
                  ⟨fs.map fun f =>
                      match f.1 with
                      | [.field i] => .assign (Place.ofLocal f.2) (.use (ops.getD i (.const 0)))
                      | _ => .nop,
                    .nop, [], []⟩
              | none => gen
          | none => gen
      | .use (.const _) =>
          match p.asLocal with
          | some l =>
              match fragmentsOpt map l with
              | some fs =>
                  ⟨fs.map fun f =>
                      .assign (Place.ofLocal f.2) (.use (.move (p.projectDeeper f.1))),
                    s, [l], []⟩
              | none => gen
          | none => gen
      | .use (.copy rp) =>
          match p.asLocal with
          | some l =>
              match fragmentsOpt map l with
              | some fs =>
                  ⟨fs.map fun f =>
                      .assign (Place.ofLocal f.2) (.use (.copy (rp.projectDeeper f.1))),
                    .nop, [], []⟩
              | none => gen
          | none => gen
      | .use (.move rp) =>
          match p.asLocal with
          | some l =>
              match fragmentsOpt map l with
              | some fs =>
                  ⟨fs.map fun f =>
                      .assign (Place.ofLocal f.2) (.use (.move (rp.projectDeeper f.1))),
                    .nop, [], []⟩
              | none => gen
          | none => gen
      | _ => gen
  | .setDiscriminant _ _ => gen
  | .nop => gen

/-- Generic terminator rewrite (`super_terminator`; the rewriter does not
override `visit_terminator`). -/
def rwVisitTerminator (map : List (PlaceKey × Local)) : Terminator → Terminator × List Local
  | .goto t => (.goto t, [])
  | .switchInt d ts => let r := rwVisitOperand map d; (.switchInt r.1 ts, r.2)
  | .ret => (.ret, [])
  | .drop p t => let r := rwVisitPlace map p; (.drop r.1 t, r.2)
  | .dropAndReplace p v t =>
      let rp := rwVisitPlace map p
      let rv := rwVisitOperand map v
      (.dropAndReplace rp.1 rv.1 t, rp.2 ++ rv.2)
  | .call f args dest t =>
      let rf := rwVisitOperand map f
      let ra := rwVisitOperands map args
      let rd := rwVisitPlace map dest
      (.call rf.1 ra.1 rd.1 t, rf.2 ++ ra.2 ++ rd.2)

/-- Mirrors `ReplacementVisitor::gather_debug_info_fragments`: `none` when
the base local has no fragments; otherwise one output fragment per stored
projection extending the place's own projection, with the prefix removed
and the contents pointing at the fresh local. -/
def gatherDebugInfoFragments (map : List (PlaceKey × Local)) (p : Place) :
    Option (List VarDebugInfoFragment) :=
  match fragmentsOpt map p.base with
  | none => none
  | some parts =>
      some (parts.filterMap fun pr =>
        if p.projection.isPrefixOf pr.1 then
          some ⟨pr.1.drop p.projection.length, Place.ofLocal pr.2⟩
        else none)

/-- The `drain_filter` over a composite entry's fragments: a fragment whose
contents can be directly substituted is drained (removed); a fragment whose
contents can be gathered stays and its expansions (with the fragment's own
projection prepended) are appended after the loop; a fragment admitting
neither is drained. -/
def rwCompositeFragments (map : List (PlaceKey × Local))
    (frs : List VarDebugInfoFragment) : List VarDebugInfoFragment :=
  let kept := frs.filter fun fr =>
    (replacePlace map fr.contents).isNone && (gatherDebugInfoFragments map fr.contents).isSome
  let newFs := frs.flatMap fun fr =>
    if (replacePlace map fr.contents).isNone then
      match gatherDebugInfoFragments map fr.contents with
      | some sub => sub.map fun f => ⟨fr.projection ++ f.projection, f.contents⟩
      | none => []
    else []
  kept ++ newFs

/-- Mirrors `ReplacementVisitor::visit_var_debug_info`. -/
def rwVarDebugInfo (map : List (PlaceKey × Local)) (decls : List LocalDecl)
    (vdi : VarDebugInfo) : VarDebugInfo :=
  match vdi.value with
  | .place p =>
      match replacePlace map p with
      | some q => { vdi with value := .place q }
      | none =>
          match gatherDebugInfoFragments map p with
          | some frs => { vdi with value := .composite (placeTy decls p) frs }
          | none => vdi
  | .composite ty frs => { vdi with value := .composite ty (rwCompositeFragments map frs) }
  | .const _ => vdi

/-- One statement's contribution to the patched statement list: the staged
insertions followed by the mutated statement. -/
def rwStatementOut (map : List (PlaceKey × Local)) (s : StatementKind) : List StatementKind :=
  let r := rwVisitStatement map s
  r.inserted ++ [r.stmt]

/-- One basic block after rewriting and patch application. -/
def rwBasicBlock (map : List (PlaceKey × Local)) (bb : BasicBlockData) : BasicBlockData :=
  { statements := bb.statements.flatMap (rwStatementOut map),
    terminator := (rwVisitTerminator map bb.terminator).1 }

/-- Mirrors `replace_flattened_locals`: a no-op when `all_dead_locals` is
empty (equivalently, when the plan is empty, since every key inserts its
base); otherwise rewrite every block and every debug-info entry and apply
the patch. -/
def replaceFlattenedLocals (map : List (PlaceKey × Local)) (body : Body) : Body :=
  if map.isEmpty then body
  else
    { body with
      basicBlocks := body.basicBlocks.map (rwBasicBlock map),
      varDebugInfo := body.varDebugInfo.map (rwVarDebugInfo map body.localDecls) }

/-- Every local reaching the rewriter's `visit_local` assertion through the
generic traversal of the body's blocks, in traversal order. -/
def rwBodyVisited (map : List (PlaceKey × Local)) (body : Body) : List Local :=
  body.basicBlocks.flatMap fun bb =>
    (bb.statements.flatMap fun s => (rwVisitStatement map s).visited) ++
    (rwVisitTerminator map bb.terminator).2

/-- Every local removed from `all_dead_locals` during the rewrite (the
literal-constant rule's exemptions). -/
def rwBodyRemoved (map : List (PlaceKey × Local)) (body : Body) : List Local :=
  body.basicBlocks.flatMap fun bb =>
    bb.statements.flatMap fun s => (rwVisitStatement map s).removedDead

/-- Mirrors `ScalarReplacementOfAggregates::run_pass`: escape analysis,
flattening plan (which appends the fresh locals to the declaration table),
then the rewrite. -/
def runPass (body : Body) : Body :=
  let escaping := escapingLocals body
  let plan := computeFlattening body escaping
  replaceFlattenedLocals plan.map { body with localDecls := plan.localDecls }

/-! ## Well-formedness

The theorems about the assertion in the rewriter presuppose a body that the
compiler could actually hand to this pass: every place is well typed with
respect to the declaration table, every index operand is an integer-typed
local, and no `DropAndReplace` terminator remains (MIR disallows it after
drop elaboration, which precedes the optimization passes). -/

/-- A well-typed place: strict typing succeeds and index locals are
base-typed. -/
def wfPlace (decls : List LocalDecl) (p : Place) : Bool :=
  (placeTyStrict decls p).isSome &&
  (projIndexLocals p.projection).all fun l =>
    match decls.get? l with
    | some d => d.ty.isBase
    | none => false

/-- No `DropAndReplace` terminator (disallowed at this phase of MIR). -/
def noDropAndReplace (body : Body) : Bool :=
  body.basicBlocks.all fun bb =>
    match bb.terminator with
    | .dropAndReplace _ _ _ => false
    | _ => true

/-- Well-formed input body for the pass. -/
def wfBody (body : Body) : Bool :=
  (placesOfBody body).all (wfPlace body.localDecls) && noDropAndReplace body

/-- Whether a statement mentions a local: as a storage-marker operand, or
as the base or an index local of one of its places. -/
def StatementKind.mentions (s : StatementKind) (l : Local) : Bool :=
  match s with
  | .storageLive l' => l' == l
  | .storageDead l' => l' == l
  | _ => (placesOfStatement s).any fun p =>
      p.base == l || (projIndexLocals p.projection).contains l

/-! ## Supporting lemmas -/

theorem natList_contains_iff {l : List Nat} {a : Nat} :
    l.contains a = true ↔ a ∈ l := by
  simp [List.contains, List.elem_iff]

theorem lookupKey_append_some {m t : List (PlaceKey × Local)} {k : PlaceKey} {v : Local}
    (h : lookupKey m k = some v) : lookupKey (m ++ t) k = some v := by
  induction m with
  | nil => simp [lookupKey] at h
  | cons kv rest ih =>
      by_cases hk : kv.1 = k
      · simp only [lookupKey, if_pos hk] at h
        simp only [List.cons_append, lookupKey, if_pos hk]
        exact h
      · simp only [lookupKey, if_neg hk] at h
        simp only [List.cons_append, lookupKey, if_neg hk]
        exact ih h

theorem lookupKey_append_self {m : List (PlaceKey × Local)} {k : PlaceKey} {v : Local}
    (h : lookupKey m k = none) : lookupKey (m ++ [(k, v)]) k = some v := by
  induction m with
  | nil => simp [lookupKey]
  | cons kv rest ih =>
      by_cases hk : kv.1 = k
      · simp [lookupKey, if_pos hk] at h
      · simp only [lookupKey, if_neg hk] at h
        simp only [List.cons_append, lookupKey, if_neg hk]
        exact ih h

theorem lookupKey_some_mem {m : List (PlaceKey × Local)} {k : PlaceKey} {v : Local}
    (h : lookupKey m k = some v) : (k, v) ∈ m := by
  induction m with
  | nil => simp [lookupKey] at h
  | cons kv rest ih =>
      by_cases hk : kv.1 = k
      · simp only [lookupKey, if_pos hk] at h
        obtain rfl := Option.some.inj h
        have : kv = (k, kv.2) := by
          cases kv
          simpa using hk
        rw [this]
        exact List.mem_cons_self _ _
      · simp only [lookupKey, if_neg hk] at h
        exact List.mem_cons_of_mem _ (ih h)

/-- Each planner step appends to both the declaration table and the map,
one declaration per map entry. -/
theorem planVisitPlace_grow (esc : List Local) (st : PlanState) (p : Place) :
    ∃ td tm, (planVisitPlace esc st p).localDecls = st.localDecls ++ td ∧
      (planVisitPlace esc st p).map = st.map ++ tm ∧ td.length = tm.length := by
  unfold planVisitPlace
  split
  · unfold createPlace
    split
    · exact ⟨[], [], by simp⟩
    · split
      · exact ⟨[], [], by simp⟩
      · exact ⟨_, _, rfl, rfl, by simp⟩
  · exact ⟨[], [], by simp⟩

/-- The planner fold appends to both the declaration table and the map,
one declaration per map entry. -/
theorem planFold_grow (esc : List Local) (ps : List Place) (st : PlanState) :
    ∃ td tm, (ps.foldl (planVisitPlace esc) st).localDecls = st.localDecls ++ td ∧
      (ps.foldl (planVisitPlace esc) st).map = st.map ++ tm ∧ td.length = tm.length := by
  induction ps generalizing st with
  | nil => exact ⟨[], [], by simp⟩
  | cons q qs ih =>
      obtain ⟨td1, tm1, hd1, hm1, hl1⟩ := planVisitPlace_grow esc st q
      obtain ⟨td2, tm2, hd2, hm2, hl2⟩ := ih (planVisitPlace esc st q)
      refine ⟨td1 ++ td2, tm1 ++ tm2, ?_, ?_, by simp [hl1, hl2]⟩
      · rw [List.foldl_cons, hd2, hd1, List.append_assoc]
      · rw [List.foldl_cons, hm2, hm1, List.append_assoc]

/-- A key present in the map stays present (with the same local) for the
rest of the fold. -/
theorem planFold_lookup_persist (esc : List Local) (ps : List Place) (st : PlanState)
    {k : PlaceKey} {v : Local} (h : lookupKey st.map k = some v) :
    lookupKey ((ps.foldl (planVisitPlace esc) st).map) k = some v := by
  obtain ⟨_, tm, _, hm, _⟩ := planFold_grow esc ps st
  rw [hm]
  exact lookupKey_append_some h

/-- Invariant of the planner fold: every key of the map has a non-escaping
base, consists of exactly one field step, and originates from a place of
the processed list whose projection begins with that step. -/
theorem planFold_keys (esc : List Local) (S : List Place) :
    ∀ (ps : List Place) (st : PlanState), (∀ p ∈ ps, p ∈ S) →
      (∀ kv ∈ st.map, esc.contains kv.1.1 = false ∧
        ∃ i rest, kv.1.2 = [PlaceElem.field i] ∧
          (⟨kv.1.1, PlaceElem.field i :: rest⟩ : Place) ∈ S) →
      ∀ kv ∈ (ps.foldl (planVisitPlace esc) st).map,
        esc.contains kv.1.1 = false ∧
        ∃ i rest, kv.1.2 = [PlaceElem.field i] ∧
          (⟨kv.1.1, PlaceElem.field i :: rest⟩ : Place) ∈ S := by
  intro ps
  induction ps with
  | nil => intro st _ hst; simpa using hst
  | cons q qs ih =>
      intro st hsub hst
      rw [List.foldl_cons]
      refine ih (planVisitPlace esc st q) (fun p hp => hsub p (List.mem_cons_of_mem _ hp)) ?_
      intro kv hkv
      unfold planVisitPlace at hkv
      split at hkv
      case _ i tail heq =>
        unfold createPlace at hkv
        split at hkv
        · exact hst kv hkv
        · split at hkv
          · exact hst kv hkv
          · next hesc _ _ =>
              simp only [List.mem_append, List.mem_singleton] at hkv
              rcases hkv with hkv | hkv
              · exact hst kv hkv
              · subst hkv
                refine ⟨by simpa using hesc, i, tail, rfl, ?_⟩
                have := hsub q (List.mem_cons_self _ _)
                have hq : q = (⟨q.base, PlaceElem.field i :: tail⟩ : Place) := by
                  cases q
                  simp_all
                rwa [← hq]
      · exact hst kv hkv

/-- Every place of the processed list whose projection begins with a field
step and whose base is not escaping has its one-field prefix as a key of
the final map. -/
theorem planFold_covers (esc : List Local) :
    ∀ (ps : List Place) (st : PlanState) (p : Place) (i : Nat) (rest : List PlaceElem),
      p ∈ ps → p.projection = PlaceElem.field i :: rest → esc.contains p.base = false →
      ∃ v, lookupKey ((ps.foldl (planVisitPlace esc) st).map) (p.base, [PlaceElem.field i]) = some v := by
  intro ps
  induction ps with
  | nil => intro st p i rest h; simp at h
  | cons q qs ih =>
      intro st p i rest hmem hproj hesc
      rw [List.foldl_cons]
      rcases List.mem_cons.mp hmem with rfl | hmem
      · -- the key is present right after processing `p`, and persists
        have hkey : ∃ v, lookupKey (planVisitPlace esc st p).map (p.base, [PlaceElem.field i]) = some v := by
          unfold planVisitPlace
          rw [hproj]
          unfold createPlace
          simp only [hesc, Bool.false_eq_true, if_false]
          cases hlk : lookupKey st.map (p.base, [PlaceElem.field i]) with
          | some v => simp only [hlk]; exact ⟨v, rfl⟩
          | none => simp only [hlk]; exact ⟨_, lookupKey_append_self hlk⟩
        obtain ⟨v, hv⟩ := hkey
        exact ⟨v, planFold_lookup_persist esc qs _ hv⟩
      · exact ih _ p i rest hmem hproj hesc

/-- The plan computed for a body by the pass (escape analysis included). -/
def bodyPlan (body : Body) : PlanState :=
  computeFlattening body (escapingLocals body)

/-- The decomposition map computed for a body by the pass. -/
def bodyMap (body : Body) : List (PlaceKey × Local) :=
  (bodyPlan body).map

/-- Every key of a body's plan has a non-escaping base, exactly one field
step, and a witnessing place in the body. -/
theorem bodyMap_keys (body : Body) :
    ∀ kv ∈ bodyMap body, (escapingLocals body).contains kv.1.1 = false ∧
      ∃ i rest, kv.1.2 = [PlaceElem.field i] ∧
        (⟨kv.1.1, PlaceElem.field i :: rest⟩ : Place) ∈ placesOfBody body := by
  intro kv hkv
  exact planFold_keys (escapingLocals body) (placesOfBody body) (placesOfBody body)
    ⟨body.localDecls, []⟩ (fun p hp => hp) (by simp) kv hkv

/-- Every field-headed place of the body with a non-escaping base has its
one-field prefix as a key of the body's plan. -/
theorem bodyMap_covers (body : Body) (p : Place) (i : Nat) (rest : List PlaceElem)
    (hp : p ∈ placesOfBody body) (hproj : p.projection = PlaceElem.field i :: rest)
    (hesc : (escapingLocals body).contains p.base = false) :
    ∃ v, lookupKey (bodyMap body) (p.base, [PlaceElem.field i]) = some v :=
  planFold_covers (escapingLocals body) (placesOfBody body) ⟨body.localDecls, []⟩
    p i rest hp hproj hesc

/-- The escape contributions of a statement of the body are in the escape
set. -/
theorem escStatement_subset (body : Body) (bb : BasicBlockData) (s : StatementKind)
    (hbb : bb ∈ body.basicBlocks) (hs : s ∈ bb.statements) :
    ∀ l ∈ escVisitStatement s, l ∈ escapingLocals body := by
  intro l hl
  unfold escapingLocals
  refine List.mem_append_right _ ?_
  exact List.mem_flatMap.mpr
    ⟨bb, hbb, List.mem_append_left _ (List.mem_flatMap.mpr ⟨s, hs, hl⟩)⟩

/-- The escape contributions of a terminator of the body are in the escape
set. -/
theorem escTerminator_subset (body : Body) (bb : BasicBlockData)
    (hbb : bb ∈ body.basicBlocks) :
    ∀ l ∈ escVisitTerminator bb.terminator, l ∈ escapingLocals body := by
  intro l hl
  unfold escapingLocals
  refine List.mem_append_right _ ?_
  exact List.mem_flatMap.mpr ⟨bb, hbb, List.mem_append_right _ hl⟩

/-- An escaping local is never the base of a plan key. -/
theorem bodyMap_no_escaping_base (body : Body) (x : Local)
    (hx : x ∈ escapingLocals body) : ∀ kv ∈ bodyMap body, kv.1.1 ≠ x := by
  intro kv hkv heq
  obtain ⟨hesc, _⟩ := bodyMap_keys body kv hkv
  rw [heq, natList_contains_iff.mpr hx] at hesc
  cases hesc

/-- A local that is never the base of a plan key is never replaced. -/
theorem replacePlace_none_of_no_key (map : List (PlaceKey × Local)) (x : Local)
    (hno : ∀ kv ∈ map, kv.1.1 ≠ x) :
    ∀ q : Place, q.base = x → replacePlace map q = none := by
  intro q hq
  unfold replacePlace
  split
  · next i rest heq =>
      cases hlk : lookupKey map (q.base, [PlaceElem.field i]) with
      | none => rfl
      | some v =>
          have := hno _ (lookupKey_some_mem hlk)
          simp [hq] at this
  · rfl

/-! ## Concrete example bodies used by witnesses and counterexamples -/

/-- A scalar type for the examples. -/
def tb : Ty := Ty.base 0

/-- A two-field record type for the examples. -/
def tpair : Ty := Ty.tuple [tb, tb]

/-- A record type whose first field is itself a record. -/
def tnested : Ty := Ty.tuple [tpair, tb]

/-- The spec's end-to-end example: `x = (1, 2)` followed by a use of both
fields of `x`, with storage markers and a debug entry for `x`.
Locals: `0` return slot, `1` is `x`, `2` is `y`. -/
def exPair : Body :=
  { localDecls := [⟨tb, true, 0, none⟩, ⟨tpair, true, 1, none⟩, ⟨tb, true, 2, none⟩],
    argCount := 0,
    basicBlocks := [⟨[
      .storageLive 1,
      .assign ⟨1, []⟩ (.aggregate [.const 1, .const 2]),
      .assign ⟨2, []⟩ (.other [.copy ⟨1, [.field 0]⟩, .copy ⟨1, [.field 1]⟩]),
      .storageDead 1], .ret⟩],
    varDebugInfo := [⟨0, .place ⟨1, []⟩⟩] }

/-! ## Claims -/

/-- C3: the return slot and every parameter are escaping unconditionally,
so no plan key ever has one of them as its base. -/
theorem C3_params_and_return_never_decomposed (body : Body) (l : Local)
    (h : l ≤ body.argCount) :
    l ∈ escapingLocals body ∧ ∀ kv ∈ bodyMap body, kv.1.1 ≠ l := by
  have hmem : l ∈ escapingLocals body := by
    unfold escapingLocals
    exact List.mem_append_left _
      (List.mem_append_left _ (by simpa [List.mem_range, Nat.lt_succ_iff] using h))
  exact ⟨hmem, bodyMap_no_escaping_base body l hmem⟩

/-- Witness for C3 at the end-to-end example body with `l` the return
slot. -/
theorem C3_params_and_return_never_decomposed_witness :
    0 ≤ exPair.argCount ∧
    (0 ∈ escapingLocals exPair ∧ ∀ kv ∈ bodyMap exPair, kv.1.1 ≠ 0) :=
  ⟨by decide, C3_params_and_return_never_decomposed exPair 0 (by decide)⟩

/-- C4: a union- or enum-typed local is escaping, so no plan key ever has
it as its base. -/
theorem C4_union_enum_never_decomposed (body : Body) (l : Local) (d : LocalDecl)
    (hd : body.localDecls.get? l = some d)
    (hty : d.ty.isUnion = true ∨ d.ty.isEnum = true) :
    l ∈ escapingLocals body ∧ ∀ kv ∈ bodyMap body, kv.1.1 ≠ l := by
  have hl : l < body.localDecls.length := by
    by_contra hge
    rw [List.get?_eq_none.mpr (Nat.le_of_not_lt hge)] at hd
    cases hd
  have hmem : l ∈ escapingLocals body := by
    unfold escapingLocals
    refine List.mem_append_left _ (List.mem_append_right _ ?_)
    unfold unionEnumLocals
    rw [List.mem_filter]
    refine ⟨List.mem_range.mpr hl, ?_⟩
    rw [hd]
    rcases hty with hty | hty <;> simp [hty]
  exact ⟨hmem, bodyMap_no_escaping_base body l hmem⟩

/-- A body with a union-typed local `1` whose field is read. -/
def exUnion : Body :=
  { localDecls := [⟨tb, true, 0, none⟩, ⟨Ty.tunion [tb, tb], true, 1, none⟩,
                   ⟨tb, true, 2, none⟩],
    argCount := 0,
    basicBlocks := [⟨[
      .assign ⟨2, []⟩ (.use (.copy ⟨1, [.field 0]⟩))], .ret⟩],
    varDebugInfo := [] }

/-- Witness for C4 at a body with a union-typed local that is accessed
only through a field. -/
theorem C4_union_enum_never_decomposed_witness :
    exUnion.localDecls.get? 1 = some ⟨Ty.tunion [tb, tb], true, 1, none⟩ ∧
    (1 ∈ escapingLocals exUnion ∧ ∀ kv ∈ bodyMap exUnion, kv.1.1 ≠ 1) :=
  ⟨rfl, C4_union_enum_never_decomposed exUnion 1 ⟨Ty.tunion [tb, tb], true, 1, none⟩ rfl
    (Or.inl rfl)⟩

/-- A body where `x` (local `1`) has its address taken and a whole field of
`x` is copied into a planned variable `z` (local `2`): `p = &x`;
`z = copy x.0`; `w = copy z.0`. -/
def exEscCopy : Body :=
  { localDecls := [⟨tb, true, 0, none⟩, ⟨tnested, true, 1, none⟩, ⟨tpair, true, 2, none⟩,
                   ⟨Ty.ref tnested, true, 3, none⟩, ⟨tb, true, 4, none⟩],
    argCount := 0,
    basicBlocks := [⟨[
      .assign ⟨3, []⟩ (.ref ⟨1, []⟩),
      .assign ⟨2, []⟩ (.use (.copy ⟨1, [.field 0]⟩)),
      .assign ⟨4, []⟩ (.use (.copy ⟨2, [.field 0]⟩))], .ret⟩],
    varDebugInfo := [] }

/-- C2, counterexample to the claim as stated: in `exEscCopy`, local `1` is
escaping because its address is taken by a non-indirect reference, yet the
list of statements mentioning it is not left exactly as it was — the
copy/move expansion rule replaces `z = copy x.0` by per-fragment copies
`z$0 = copy x.0.0`, deepening the access to `x`. -/
theorem C2_counterexample :
    (StatementKind.assign ⟨3, []⟩ (Rvalue.ref ⟨1, []⟩)) ∈
      (exEscCopy.basicBlocks.getD 0 default).statements ∧
    (⟨1, []⟩ : Place).isIndirect = false ∧
    ((runPass exEscCopy).basicBlocks.getD 0 default).statements.filter
        (fun s => s.mentions 1) ≠
      (exEscCopy.basicBlocks.getD 0 default).statements.filter
        (fun s => s.mentions 1) := by
  refine ⟨by decide, by decide, by decide⟩

/-- C2, amended: a variable whose address is taken by a non-indirect
reference or address-of rvalue is escaping; no plan key is created for it
and the generic place rewrite never substitutes a place rooted at it.
(However, a statement that copies or moves a whole field of it into a
variable with fragments is expanded into per-fragment accesses with deeper
projections rooted at it, and composite debug-info fragments rooted at it
that admit neither rewrite rule are dropped, so statements and debug
entries mentioning it are not always byte-identical.) -/
theorem C2_escaping_base_never_rewritten (body : Body) (bb : BasicBlockData)
    (lv p : Place) (hbb : bb ∈ body.basicBlocks)
    (hs : StatementKind.assign lv (Rvalue.ref p) ∈ bb.statements)
    (hind : p.isIndirect = false) :
    p.base ∈ escapingLocals body ∧
    (∀ kv ∈ bodyMap body, kv.1.1 ≠ p.base) ∧
    (∀ q : Place, q.base = p.base → replacePlace (bodyMap body) q = none) := by
  have hcontrib : p.base ∈ escVisitStatement (StatementKind.assign lv (Rvalue.ref p)) := by
    unfold escVisitStatement escVisitAssign
    have hrv : escVisitRvalue (Rvalue.ref p) = [p.base] := by
      unfold escVisitRvalue
      simp [hind]
    cases hlv : lv.asLocal <;> simp [hlv, hrv]
  have hmem : p.base ∈ escapingLocals body :=
    escStatement_subset body bb _ hbb hs p.base hcontrib
  have hno := bodyMap_no_escaping_base body p.base hmem
  exact ⟨hmem, hno, replacePlace_none_of_no_key (bodyMap body) p.base hno⟩

/-- Witness for the amended C2 at `exEscCopy`. -/
theorem C2_escaping_base_never_rewritten_witness :
    ((StatementKind.assign ⟨3, []⟩ (Rvalue.ref ⟨1, []⟩)) ∈
        (exEscCopy.basicBlocks.getD 0 default).statements ∧
      (⟨1, []⟩ : Place).isIndirect = false) ∧
    (1 ∈ escapingLocals exEscCopy ∧
      (∀ kv ∈ bodyMap exEscCopy, kv.1.1 ≠ 1) ∧
      (∀ q : Place, q.base = 1 → replacePlace (bodyMap exEscCopy) q = none)) :=
  ⟨⟨by decide, by decide⟩,
    C2_escaping_base_never_rewritten exEscCopy (exEscCopy.basicBlocks.getD 0 default)
      ⟨3, []⟩ ⟨1, []⟩ (by decide) (by decide) (by decide)⟩

/-- Invariant of the planner fold: every fresh local of the map is declared
with the static type of its one-field sub-path, and with the base
declaration's metadata (`user_ty` reset), all stated against the original
declaration table. -/
theorem planFold_decl_spec (esc : List Local) (decls0 : List LocalDecl) :
    ∀ (ps : List Place) (st : PlanState),
      (∃ t, st.localDecls = decls0 ++ t) →
      (∀ kv ∈ st.map, kv.1.1 < decls0.length →
        ∃ d, st.localDecls.get? kv.2 = some d ∧
          d.ty = placeTy decls0 ⟨kv.1.1, kv.1.2⟩ ∧
          d.mutability = (decls0.getD kv.1.1 default).mutability ∧
          d.sourceInfo = (decls0.getD kv.1.1 default).sourceInfo ∧
          d.userTy = none) →
      (∀ kv ∈ (ps.foldl (planVisitPlace esc) st).map, kv.1.1 < decls0.length →
        ∃ d, (ps.foldl (planVisitPlace esc) st).localDecls.get? kv.2 = some d ∧
          d.ty = placeTy decls0 ⟨kv.1.1, kv.1.2⟩ ∧
          d.mutability = (decls0.getD kv.1.1 default).mutability ∧
          d.sourceInfo = (decls0.getD kv.1.1 default).sourceInfo ∧
          d.userTy = none) := by
  intro ps
  induction ps with
  | nil => intro st _ hst; simpa using hst
  | cons q qs ih =>
      intro st hpre hst
      rw [List.foldl_cons]
      obtain ⟨t, ht⟩ := hpre
      -- case analysis on the step
      rcases hq : planVisitPlace esc st q with ⟨decls', map'⟩
      have hstep : (∃ t', decls' = decls0 ++ t') ∧
          (∀ kv ∈ map', kv.1.1 < decls0.length →
            ∃ d, decls'.get? kv.2 = some d ∧
              d.ty = placeTy decls0 ⟨kv.1.1, kv.1.2⟩ ∧
              d.mutability = (decls0.getD kv.1.1 default).mutability ∧
              d.sourceInfo = (decls0.getD kv.1.1 default).sourceInfo ∧
              d.userTy = none) := by
        unfold planVisitPlace at hq
        split at hq
        case _ i tail heq =>
          unfold createPlace at hq
          split at hq
          · cases hq; exact ⟨⟨t, ht⟩, hst⟩
          · split at hq
            · cases hq; exact ⟨⟨t, ht⟩, hst⟩
            · cases hq
              constructor
              · exact ⟨t ++ [_], by rw [ht, List.append_assoc]⟩
              · intro kv hkv hlt
                simp only [List.mem_append, List.mem_singleton] at hkv
                rcases hkv with hkv | hkv
                · obtain ⟨d, hd, hrest⟩ := hst kv hkv hlt
                  have hb : kv.2 < st.localDecls.length := by
                    by_contra hge
                    rw [List.get?_eq_none.mpr (Nat.le_of_not_lt hge)] at hd
                    cases hd
                  exact ⟨d, by rw [List.get?_append hb]; exact hd, hrest⟩
                · subst hkv
                  refine ⟨_, List.get?_concat_length _ _, ?_, ?_, ?_, rfl⟩
                  · show placeTy st.localDecls ⟨q.base, [PlaceElem.field i]⟩ =
                        placeTy decls0 ⟨q.base, [PlaceElem.field i]⟩
                    unfold placeTy
                    rw [ht, List.getD_append _ _ _ _ hlt]
                  · show (st.localDecls.getD q.base default).mutability =
                        (decls0.getD q.base default).mutability
                    rw [ht, List.getD_append _ _ _ _ hlt]
                  · show (st.localDecls.getD q.base default).sourceInfo =
                        (decls0.getD q.base default).sourceInfo
                    rw [ht, List.getD_append _ _ _ _ hlt]
        · cases hq; exact ⟨⟨t, ht⟩, hst⟩
      have := ih ⟨decls', map'⟩ hstep.1 hstep.2
      simpa using this

/-- C5: every plan entry's fresh local is declared with exactly the static
type of the one-field sub-path it replaces, and with the mutability and
source info copied from the base local's declaration (`user_ty` reset). -/
theorem C5_fragment_type_and_metadata (body : Body) (kv : PlaceKey × Local)
    (hkv : kv ∈ bodyMap body) (hlt : kv.1.1 < body.localDecls.length) :
    ∃ d b, (bodyPlan body).localDecls.get? kv.2 = some d ∧
      body.localDecls.get? kv.1.1 = some b ∧
      d.ty = placeTy body.localDecls ⟨kv.1.1, kv.1.2⟩ ∧
      d.mutability = b.mutability ∧
      d.sourceInfo = b.sourceInfo ∧
      d.userTy = none := by
  have hinv := planFold_decl_spec (escapingLocals body) body.localDecls
    (placesOfBody body) ⟨body.localDecls, []⟩ ⟨[], by simp⟩ (by simp)
  obtain ⟨d, hd, hty, hmut, hsrc, huser⟩ := hinv kv hkv hlt
  obtain ⟨b, hb⟩ : ∃ b, body.localDecls.get? kv.1.1 = some b := by
    cases hg : body.localDecls.get? kv.1.1 with
    | none => exact absurd (List.get?_eq_none.mp hg) (Nat.not_le.mpr hlt)
    | some b => exact ⟨b, rfl⟩
  have hbD : body.localDecls.getD kv.1.1 default = b := by
    rw [List.getD_eq_getElem?_getD, ← List.get?_eq_getElem?, hb]
    rfl
  exact ⟨d, b, hd, hb, hty, by rw [hmut, hbD], by rw [hsrc, hbD], huser⟩

/-- Witness for C5 at the end-to-end example body: the entry for `x.0`. -/
theorem C5_fragment_type_and_metadata_witness :
    (((1 : Local), [PlaceElem.field 0]), (3 : Local)) ∈ bodyMap exPair ∧ 1 < exPair.localDecls.length ∧
    (∃ d b, (bodyPlan exPair).localDecls.get? 3 = some d ∧
      exPair.localDecls.get? 1 = some b ∧
      d.ty = placeTy exPair.localDecls ⟨1, [PlaceElem.field 0]⟩ ∧
      d.mutability = b.mutability ∧
      d.sourceInfo = b.sourceInfo ∧
      d.userTy = none) :=
  ⟨by decide, by decide,
    C5_fragment_type_and_metadata exPair ((1, [PlaceElem.field 0]), 3) (by decide) (by decide)⟩

/-- A place that is a bare local is that local. -/
theorem Place.eq_ofLocal_of_asLocal {p : Place} {l : Local}
    (h : p.asLocal = some l) : p = Place.ofLocal l := by
  obtain ⟨b, proj⟩ := p
  cases proj with
  | nil =>
      unfold Place.asLocal at h
      simp at h
      simp [Place.ofLocal, h]
  | cons e rest =>
      unfold Place.asLocal at h
      simp at h

/-- A body with a place whose projection is a field step followed by an
index step: `w = copy x.0[i]` where `x` is local `1` and `i` is local `2`.
Under the generic path-visiting rule the index local `i` would be visited
(and marked escaping); the escape visitor skips the whole path. -/
def exFieldIndex : Body :=
  { localDecls := [⟨tb, true, 0, none⟩, ⟨Ty.tuple [Ty.array tb, tb], true, 1, none⟩,
                   ⟨tb, true, 2, none⟩, ⟨tb, true, 3, none⟩],
    argCount := 0,
    basicBlocks := [⟨[
      .assign ⟨3, []⟩ (.use (.copy ⟨1, [.field 0, .index 2]⟩))], .ret⟩],
    varDebugInfo := [] }

/-- C7, counterexample to the claim as stated: the body `exFieldIndex`
contains the path `x.0[i]` (projection beginning with a field step whose
second step is an index whose local is `2`), yet local `2` is not marked
escaping — the deeper index step was not visited at all. -/
theorem C7_counterexample :
    (⟨1, [PlaceElem.field 0, PlaceElem.index 2]⟩ : Place) ∈ placesOfBody exFieldIndex ∧
    2 ∉ escapingLocals exFieldIndex := by
  refine ⟨by decide, by decide⟩

/-- C7, amended: when a path's projection begins with a field step, the
escape visitor elides the entire path — neither the base variable nor any
further step (field of field, dereference, index) is visited through it,
so deeper steps of such a path never mark anything escaping. -/
theorem C7_field_headed_path_fully_elided (x : Local) (i : Nat) (rest : List PlaceElem) :
    escVisitPlace ⟨x, PlaceElem.field i :: rest⟩ = [] ∧
    escVisitOperand (Operand.copy ⟨x, PlaceElem.field i :: rest⟩) = [] ∧
    escVisitOperand (Operand.move ⟨x, PlaceElem.field i :: rest⟩) = [] :=
  ⟨rfl, rfl, rfl⟩

/-- C6: the literal-constant rule stages, for each fragment, one assignment
moving that field projected out of the constant's (retained) place into the
fragment's fresh local; it keeps the original statement in place and
removes exactly the base local from the dead set — and it is the only rule
that removes anything from the dead set. -/
theorem C6_constant_rule (map : List (PlaceKey × Local)) (l : Local) (c : Nat)
    (fs : List (List PlaceElem × Local)) (hf : fragmentsOpt map l = some fs) :
    (rwVisitStatement map (.assign (Place.ofLocal l) (.use (.const c))) =
      ⟨fs.map fun f => .assign (Place.ofLocal f.2) (.use (.move ⟨l, f.1⟩)),
       .assign (Place.ofLocal l) (.use (.const c)), [l], []⟩) ∧
    (∀ s : StatementKind, (rwVisitStatement map s).removedDead ≠ [] →
      ∃ l' c' fs', s = .assign (Place.ofLocal l') (.use (.const c')) ∧
        fragmentsOpt map l' = some fs' ∧
        (rwVisitStatement map s).stmt = s ∧
        (rwVisitStatement map s).removedDead = [l']) := by
  constructor
  · simp [rwVisitStatement, Place.ofLocal, Place.asLocal, hf, Place.projectDeeper]
  · intro s hrd
    match s with
    | .storageLive l' =>
        cases hfo : fragmentsOpt map l' <;> simp [rwVisitStatement, hfo] at hrd
    | .storageDead l' =>
        cases hfo : fragmentsOpt map l' <;> simp [rwVisitStatement, hfo] at hrd
    | .deinit p =>
        cases hA : p.asLocal with
        | none => simp [rwVisitStatement, hA] at hrd
        | some l' => cases hfo : fragmentsOpt map l' <;>
            simp [rwVisitStatement, hA, hfo] at hrd
    | .setDiscriminant p v => simp [rwVisitStatement] at hrd
    | .nop => simp [rwVisitStatement] at hrd
    | .assign p (.aggregate ops) =>
        cases hA : p.asLocal with
        | none => simp [rwVisitStatement, hA] at hrd
        | some l' => cases hfo : fragmentsOpt map l' <;>
            simp [rwVisitStatement, hA, hfo] at hrd
    | .assign p (.ref q) => simp [rwVisitStatement] at hrd
    | .assign p (.discriminant q) => simp [rwVisitStatement] at hrd
    | .assign p (.other ops) => simp [rwVisitStatement] at hrd
    | .assign p (.use (.copy q)) =>
        cases hA : p.asLocal with
        | none => simp [rwVisitStatement, hA] at hrd
        | some l' => cases hfo : fragmentsOpt map l' <;>
            simp [rwVisitStatement, hA, hfo] at hrd
    | .assign p (.use (.move q)) =>
        cases hA : p.asLocal with
        | none => simp [rwVisitStatement, hA] at hrd
        | some l' => cases hfo : fragmentsOpt map l' <;>
            simp [rwVisitStatement, hA, hfo] at hrd
    | .assign p (.use (.const c')) =>
        cases hA : p.asLocal with
        | none => simp [rwVisitStatement, hA] at hrd
        | some l' =>
            cases hfo : fragmentsOpt map l' with
            | none => simp [rwVisitStatement, hA, hfo] at hrd
            | some fs' =>
                have hp := Place.eq_ofLocal_of_asLocal hA
                subst hp
                exact ⟨l', c', fs', rfl, hfo, by simp [rwVisitStatement, hA, hfo],
                  by simp [rwVisitStatement, hA, hfo]⟩

/-- Witness for C6 at the plan of a body assigning a constant to a
variable with a planned field: `x = const 7; y = copy x.0`. -/
def exConstAssign : Body :=
  { localDecls := [⟨tb, true, 0, none⟩, ⟨tpair, true, 1, none⟩, ⟨tb, true, 2, none⟩],
    argCount := 0,
    basicBlocks := [⟨[
      .assign ⟨1, []⟩ (.use (.const 7)),
      .assign ⟨2, []⟩ (.use (.copy ⟨1, [.field 0]⟩))], .ret⟩],
    varDebugInfo := [] }

/-- Witness for C6: the literal-constant rule evaluated on the concrete
body `exConstAssign`. -/
theorem C6_constant_rule_witness :
    fragmentsOpt (bodyMap exConstAssign) 1 = some [([PlaceElem.field 0], 3)] ∧
    (rwVisitStatement (bodyMap exConstAssign) (.assign (Place.ofLocal 1) (.use (.const 7))) =
      ⟨[.assign (Place.ofLocal 3) (.use (.move ⟨1, [PlaceElem.field 0]⟩))],
       .assign (Place.ofLocal 1) (.use (.const 7)), [1], []⟩) :=
  ⟨by decide, ((C6_constant_rule (bodyMap exConstAssign) 1 7 [([PlaceElem.field 0], 3)]
      (by decide)).1)⟩

/-- The shape of a terminator: its kind tag and its successor edges,
ignoring contained places and operands. -/
def Terminator.shape : Terminator → Nat × List Nat
  | .goto t => (0, [t])
  | .switchInt _ ts => (1, ts)
  | .ret => (2, [])
  | .drop _ t => (3, [t])
  | .dropAndReplace _ _ t => (4, [t])
  | .call _ _ _ t => (5, t.toList)

/-- The generic terminator rewrite preserves the terminator's kind and
successors. -/
theorem rwVisitTerminator_shape (map : List (PlaceKey × Local)) (t : Terminator) :
    ((rwVisitTerminator map t).1).shape = t.shape := by
  cases t <;> simp [rwVisitTerminator, Terminator.shape]

/-- C9: the pass preserves the control-flow graph — it neither adds nor
removes basic blocks, and every terminator keeps its kind and its successor
edges; only statements and contained places are edited. -/
theorem C9_cfg_preserved (body : Body) :
    (runPass body).basicBlocks.length = body.basicBlocks.length ∧
    ∀ i : Nat,
      ((runPass body).basicBlocks.get? i).map (fun bb => bb.terminator.shape) =
      (body.basicBlocks.get? i).map (fun bb => bb.terminator.shape) := by
  by_cases h : (computeFlattening body (escapingLocals body)).map.isEmpty = true <;>
    simp only [runPass, replaceFlattenedLocals, h, Bool.false_eq_true, if_true, if_false]
  · simp
  · refine ⟨by simp, fun i => ?_⟩
    simp only [List.get?_map]
    cases hg : body.basicBlocks.get? i with
    | none => simp [hg]
    | some bb => simp [hg, rwBasicBlock, rwVisitTerminator_shape]

/-- C10: a single-path debug entry whose base local has fragments, none of
which extends the entry's own projection, is still converted into a
composite description with an empty fragment list (not left in place and
not a failure). -/
theorem C10_unmatched_debug_entry_empty_composite
    (map : List (PlaceKey × Local)) (decls : List LocalDecl)
    (vdi : VarDebugInfo) (p : Place) (parts : List (List PlaceElem × Local))
    (hv : vdi.value = .place p)
    (hr : replacePlace map p = none)
    (hf : fragmentsOpt map p.base = some parts)
    (hnone : ∀ pr ∈ parts, p.projection.isPrefixOf pr.1 = false) :
    rwVarDebugInfo map decls vdi = { vdi with value := .composite (placeTy decls p) [] } := by
  unfold rwVarDebugInfo
  rw [hv]
  simp only [hr]
  unfold gatherDebugInfoFragments
  simp only [hf]
  have hempty : parts.filterMap (fun pr =>
      if p.projection.isPrefixOf pr.1 then
        some (⟨pr.1.drop p.projection.length, Place.ofLocal pr.2⟩ : VarDebugInfoFragment)
      else none) = [] := by
    rw [List.filterMap_eq_nil]
    intro pr hpr
    simp [hnone pr hpr]
  rw [hempty]

/-- A body where the debug entry names field `1` of `x` while only field
`0` of `x` is planned. -/
def exDebugSibling : Body :=
  { localDecls := [⟨tb, true, 0, none⟩, ⟨tpair, true, 1, none⟩, ⟨tb, true, 2, none⟩],
    argCount := 0,
    basicBlocks := [⟨[
      .assign ⟨2, []⟩ (.use (.copy ⟨1, [.field 0]⟩))], .ret⟩],
    varDebugInfo := [⟨5, .place ⟨1, [.field 1]⟩⟩] }

/-- Witness for C10 at `exDebugSibling`. -/
theorem C10_unmatched_debug_entry_empty_composite_witness :
    ((⟨5, .place ⟨1, [PlaceElem.field 1]⟩⟩ : VarDebugInfo).value = .place ⟨1, [PlaceElem.field 1]⟩ ∧
      replacePlace (bodyMap exDebugSibling) ⟨1, [PlaceElem.field 1]⟩ = none ∧
      fragmentsOpt (bodyMap exDebugSibling) 1 = some [([PlaceElem.field 0], 3)] ∧
      (∀ pr ∈ [([PlaceElem.field 0], (3 : Local))],
        ([PlaceElem.field 1] : List PlaceElem).isPrefixOf pr.1 = false)) ∧
    rwVarDebugInfo (bodyMap exDebugSibling) (bodyPlan exDebugSibling).localDecls
        ⟨5, .place ⟨1, [PlaceElem.field 1]⟩⟩ =
      { name := 5,
        value := .composite (placeTy (bodyPlan exDebugSibling).localDecls ⟨1, [PlaceElem.field 1]⟩) [] } :=
  ⟨⟨rfl, by decide, by decide, by decide⟩,
    C10_unmatched_debug_entry_empty_composite (bodyMap exDebugSibling)
      (bodyPlan exDebugSibling).localDecls ⟨5, .place ⟨1, [PlaceElem.field 1]⟩⟩
      ⟨1, [PlaceElem.field 1]⟩ [([PlaceElem.field 0], 3)] rfl (by decide) (by decide) (by decide)⟩

/-- A body with a nested field access `y = copy x.0.1`: the first run
plans only the one-field prefix `x.0`, so the rewritten body still
contains the field-shaped projection `x$0.1` and a second run flattens it
further. -/
def exNested : Body :=
  { localDecls := [⟨tb, true, 0, none⟩, ⟨tnested, true, 1, none⟩, ⟨tb, true, 2, none⟩],
    argCount := 0,
    basicBlocks := [⟨[
      .assign ⟨2, []⟩ (.use (.copy ⟨1, [.field 0, .field 1]⟩))], .ret⟩],
    varDebugInfo := [] }

/-- C8, counterexample to the claim as stated: running the pass on the
output of a first run over `exNested` is not a no-op — the plan computed
on the already-rewritten body is not empty and the second run modifies the
instructions again. -/
theorem C8_counterexample :
    bodyMap (runPass exNested) ≠ [] ∧
    (runPass (runPass exNested)).basicBlocks ≠ (runPass exNested).basicBlocks := by
  refine ⟨by decide, by decide⟩

/-- C8, amended: the pass is a no-op on any body whose computed plan is
empty; on such bodies re-running it changes nothing.  (In general the pass
is not idempotent: a replaced place keeps its remaining projection, so a
nested field access leaves a field-shaped projection on the fresh local,
and the aggregate/constant/copy expansion rules emit operands that are not
themselves rewritten; a second run plans and rewrites these.) -/
theorem C8_noop_on_empty_plan (body : Body) (h : (bodyPlan body).map = []) :
    runPass body = body := by
  obtain ⟨td, tm, hd, hm, hl⟩ :=
    planFold_grow (escapingLocals body) (placesOfBody body) ⟨body.localDecls, []⟩
  have hmap : (bodyPlan body).map = tm := by
    unfold bodyPlan computeFlattening
    rw [hm]
    rfl
  have htm : tm = [] := by rw [← hmap, h]
  have htd : td = [] := List.length_eq_zero.mp (by rw [hl, htm]; rfl)
  have hdecls : (bodyPlan body).localDecls = body.localDecls := by
    unfold bodyPlan computeFlattening
    rw [hd, htd, List.append_nil]
  show replaceFlattenedLocals (bodyPlan body).map
      { body with localDecls := (bodyPlan body).localDecls } = body
  rw [h, hdecls]
  unfold replaceFlattenedLocals
  simp only [List.isEmpty_nil, if_true]

/-- Witness for the amended C8 at `exUnion`, whose plan is empty. -/
theorem C8_noop_on_empty_plan_witness :
    (bodyPlan exUnion).map = [] ∧ runPass exUnion = exUnion :=
  ⟨by decide, C8_noop_on_empty_plan exUnion (by decide)⟩

/-! ## Lemmas for the rewriter's assertion (claim C1) -/

/-- A local is a dead base exactly when some plan key has it as base. -/
theorem mem_deadBases_iff {map : List (PlaceKey × Local)} {l : Local} :
    l ∈ deadBases map ↔ ∃ kv ∈ map, kv.1.1 = l := by
  unfold deadBases
  simp [List.mem_map]

/-- The fragment table is empty at a local exactly when it is not a dead
base. -/
theorem fragmentsOf_eq_nil_iff (map : List (PlaceKey × Local)) (l : Local) :
    fragmentsOf map l = [] ↔ l ∉ deadBases map := by
  unfold fragmentsOf
  rw [List.map_eq_nil, List.filter_eq_nil]
  rw [mem_deadBases_iff]
  constructor
  · rintro h ⟨kv, hkv, hbase⟩
    exact h kv hkv (by simp [hbase])
  · intro h kv hkv hbeq
    exact h ⟨kv, hkv, by simpa using hbeq⟩

/-- The fragment entry is `none` at a local exactly when it is not a dead
base. -/
theorem fragmentsOpt_none_iff (map : List (PlaceKey × Local)) (l : Local) :
    fragmentsOpt map l = none ↔ l ∉ deadBases map := by
  show (if (fragmentsOf map l).isEmpty then none else some (fragmentsOf map l)) = none ↔ _
  by_cases he : (fragmentsOf map l).isEmpty = true
  · rw [if_pos he]
    rw [List.isEmpty_iff] at he
    simp [(fragmentsOf_eq_nil_iff map l).mp he]
  · rw [if_neg he]
    have hne : fragmentsOf map l ≠ [] := fun hnil => he (List.isEmpty_iff.mpr hnil)
    have hd : l ∈ deadBases map := by
      by_contra hnd
      exact hne ((fragmentsOf_eq_nil_iff map l).mpr hnd)
    simp [hd]

/-- A dead base has a fragment entry. -/
theorem fragmentsOpt_some_of_dead {map : List (PlaceKey × Local)} {l : Local}
    (h : l ∈ deadBases map) : ∃ fs, fragmentsOpt map l = some fs := by
  cases hf : fragmentsOpt map l with
  | none => exact absurd ((fragmentsOpt_none_iff map l).mp hf) (by simp [h])
  | some fs => exact ⟨fs, rfl⟩

/-- Every place of a statement of the body is a place of the body. -/
theorem mem_placesOfBody_of_stmt {body : Body} {bb : BasicBlockData}
    {s : StatementKind} {q : Place} (hbb : bb ∈ body.basicBlocks)
    (hs : s ∈ bb.statements) (hq : q ∈ placesOfStatement s) :
    q ∈ placesOfBody body := by
  unfold placesOfBody
  exact List.mem_flatMap.mpr
    ⟨bb, hbb, List.mem_append_left _ (List.mem_flatMap.mpr ⟨s, hs, hq⟩)⟩

/-- Every place of a terminator of the body is a place of the body. -/
theorem mem_placesOfBody_of_term {body : Body} {bb : BasicBlockData}
    {q : Place} (hbb : bb ∈ body.basicBlocks)
    (hq : q ∈ placesOfTerminator bb.terminator) :
    q ∈ placesOfBody body := by
  unfold placesOfBody
  exact List.mem_flatMap.mpr ⟨bb, hbb, List.mem_append_right _ hq⟩

/-- Well-formedness gives well-typedness of every place of the body. -/
theorem wf_place_of_body {body : Body} {p : Place} (hwf : wfBody body = true)
    (hp : p ∈ placesOfBody body) : wfPlace body.localDecls p = true := by
  unfold wfBody at hwf
  rw [Bool.and_eq_true] at hwf
  exact List.all_eq_true.mp hwf.1 p hp

/-- Well-formedness excludes `DropAndReplace` terminators. -/
theorem wf_no_dropAndReplace {body : Body} {bb : BasicBlockData}
    (hwf : wfBody body = true) (hbb : bb ∈ body.basicBlocks) :
    ∀ p v t, bb.terminator ≠ Terminator.dropAndReplace p v t := by
  intro p v t heq
  unfold wfBody at hwf
  rw [Bool.and_eq_true] at hwf
  have := List.all_eq_true.mp hwf.2 bb hbb
  rw [heq] at this
  cases this

/-- Under well-formedness, every dead base is a non-escaping local declared
with a tuple type. -/
theorem dead_base_tuple {body : Body} {l : Local} (hwf : wfBody body = true)
    (hl : l ∈ deadBases (bodyMap body)) :
    (escapingLocals body).contains l = false ∧
    ∃ d fs, body.localDecls.get? l = some d ∧ d.ty = Ty.tuple fs := by
  obtain ⟨kv, hkv, hbase⟩ := mem_deadBases_iff.mp hl
  obtain ⟨hesc, i, rest, hk2, hplace⟩ := bodyMap_keys body kv hkv
  subst hbase
  refine ⟨hesc, ?_⟩
  have hwp := wf_place_of_body hwf hplace
  unfold wfPlace at hwp
  rw [Bool.and_eq_true] at hwp
  have hty := hwp.1
  unfold placeTyStrict at hty
  cases hg : body.localDecls.get? kv.1.1 with
  | none => rw [hg] at hty; cases hty
  | some d =>
      rw [hg] at hty
      refine ⟨d, ?_⟩
      -- the first strict step is a field step, so the type is a tuple or a
      -- union; unions are escaping, contradicting `hesc`
      simp only [List.foldlM_cons] at hty
      cases hstep : tyProjStrict d.ty (PlaceElem.field i) with
      | none => rw [hstep] at hty; cases hty
      | some t =>
          cases hd : d.ty with
          | tuple fs => exact ⟨fs, rfl, rfl⟩
          | tunion fs =>
              -- union-typed locals are escaping
              have hlen : kv.1.1 < body.localDecls.length := by
                by_contra hge
                rw [List.get?_eq_none.mpr (Nat.le_of_not_lt hge)] at hg
                cases hg
              have hmem : kv.1.1 ∈ escapingLocals body := by
                unfold escapingLocals
                refine List.mem_append_left _ (List.mem_append_right _ ?_)
                unfold unionEnumLocals
                rw [List.mem_filter]
                exact ⟨List.mem_range.mpr hlen, by rw [hg]; simp [hd, Ty.isUnion]⟩
              rw [natList_contains_iff.mpr hmem] at hesc
              cases hesc
          | base n => rw [hd] at hstep; cases hstep
          | tenum vs => rw [hd] at hstep; cases hstep
          | ref t' => rw [hd] at hstep; cases hstep
          | array t' => rw [hd] at hstep; cases hstep

/-- Under well-formedness, an index local of a place of the body is
base-typed, hence never a dead base. -/
theorem index_local_not_dead {body : Body} {p : Place} {l : Local}
    (hwf : wfBody body = true) (hp : p ∈ placesOfBody body)
    (hl : l ∈ projIndexLocals p.projection) : l ∉ deadBases (bodyMap body) := by
  intro hdead
  have hwp := wf_place_of_body hwf hp
  unfold wfPlace at hwp
  rw [Bool.and_eq_true] at hwp
  have hidx := List.all_eq_true.mp hwp.2 l hl
  obtain ⟨_, d, fs, hg, hd⟩ := dead_base_tuple hwf hdead
  rw [hg] at hidx
  have hbase : d.ty.isBase = true := by simpa using hidx
  rw [hd] at hbase
  cases hbase

/-- The generic place rewrite of a well-typed place of the body only ever
reaches the local visitor with a dead base when the place is that bare
local itself: a field-headed place on a dead base is always replaced, and
any other projection head is impossible on the dead base's tuple type. -/
theorem rwVisitPlace_safe {body : Body} {p : Place} (hwf : wfBody body = true)
    (hp : p ∈ placesOfBody body) :
    ∀ l ∈ (rwVisitPlace (bodyMap body) p).2, l ∈ deadBases (bodyMap body) →
      p.projection = [] ∧ l = p.base := by
  intro l hl hdead
  unfold rwVisitPlace at hl
  cases hrp : replacePlace (bodyMap body) p with
  | some q => rw [hrp] at hl; cases hl
  | none =>
      rw [hrp] at hl
      simp only [List.mem_cons] at hl
      rcases hl with rfl | hl
      · obtain ⟨hesc, d, fs, hg, hd⟩ := dead_base_tuple hwf hdead
        cases hproj : p.projection with
        | nil => exact ⟨rfl, rfl⟩
        | cons e rest =>
            have hwp := wf_place_of_body hwf hp
            unfold wfPlace at hwp
            rw [Bool.and_eq_true] at hwp
            have hty := hwp.1
            unfold placeTyStrict at hty
            simp only [hg, hproj, List.foldlM_cons] at hty
            cases hstep : tyProjStrict d.ty e with
            | none => rw [hstep] at hty; cases hty
            | some t =>
                have hfield : ∃ i, e = PlaceElem.field i := by
                  rw [hd] at hstep
                  cases e with
                  | field i => exact ⟨i, rfl⟩
                  | deref => simp [tyProjStrict] at hstep
                  | index l' => simp [tyProjStrict] at hstep
                  | downcast v => simp [tyProjStrict] at hstep
                obtain ⟨i, rfl⟩ := hfield
                obtain ⟨v, hv⟩ := bodyMap_covers body p i rest hp hproj hesc
                unfold replacePlace at hrp
                simp only [hproj, hv] at hrp
                cases hrp
      · exact absurd hdead (index_local_not_dead hwf hp hl)

/-- A dead base is never escaping. -/
theorem dead_base_not_escaping {body : Body} {l : Local}
    (hdead : l ∈ deadBases (bodyMap body)) :
    (escapingLocals body).contains l = false := by
  obtain ⟨kv, hkv, hbase⟩ := mem_deadBases_iff.mp hdead
  subst hbase
  exact (bodyMap_keys body kv hkv).1

/-- An escaping local is never a dead base. -/
theorem not_dead_of_escaping {body : Body} {l : Local}
    (h : l ∈ escapingLocals body) : l ∉ deadBases (bodyMap body) := by
  intro hdead
  have hc := dead_base_not_escaping hdead
  rw [natList_contains_iff.mpr h] at hc
  cases hc

/-- A bare place contributes its base to the generic escape visit. -/
theorem mem_escVisitPlace_bare {p : Place} (h : p.projection = []) :
    p.base ∈ escVisitPlace p := by
  unfold escVisitPlace
  rw [h]
  exact List.mem_cons_self _ _

/-- A bare place is its own local. -/
theorem asLocal_some_of_nil {p : Place} (h : p.projection = []) :
    p.asLocal = some p.base := by
  unfold Place.asLocal
  rw [h]

/-- A bare place is not indirect. -/
theorem isIndirect_false_of_nil {p : Place} (h : p.projection = []) :
    p.isIndirect = false := by
  unfold Place.isIndirect
  rw [h]
  rfl

/-- The escape visit of an assignment always includes the rvalue's
contribution. -/
theorem escVisitRvalue_subset_assign (p : Place) (r : Rvalue) :
    ∀ l ∈ escVisitRvalue r, l ∈ escVisitAssign p r := by
  intro l hl
  unfold escVisitAssign
  cases hA : p.asLocal <;> cases r <;>
    first
      | exact hl
      | exact List.mem_append_right _ hl

/-- The generic operand rewrite of operands of the body never reaches the
local visitor with a dead base. -/
theorem rwVisitOperand_safe {body : Body} {op : Operand}
    (hwf : wfBody body = true)
    (hq : ∀ q ∈ placesOfOperand op, q ∈ placesOfBody body)
    (hesc : ∀ l ∈ escVisitOperand op, l ∈ escapingLocals body) :
    ∀ l ∈ (rwVisitOperand (bodyMap body) op).2, l ∉ deadBases (bodyMap body) := by
  intro l hl hdead
  cases op with
  | const c => simp [rwVisitOperand] at hl
  | copy q =>
      simp only [rwVisitOperand] at hl
      obtain ⟨hnil, rfl⟩ :=
        rwVisitPlace_safe hwf (hq q (by simp [placesOfOperand])) l hl hdead
      exact absurd hdead (not_dead_of_escaping (hesc _ (mem_escVisitPlace_bare hnil)))
  | move q =>
      simp only [rwVisitOperand] at hl
      obtain ⟨hnil, rfl⟩ :=
        rwVisitPlace_safe hwf (hq q (by simp [placesOfOperand])) l hl hdead
      exact absurd hdead (not_dead_of_escaping (hesc _ (mem_escVisitPlace_bare hnil)))

/-- The generic rvalue rewrite of rvalues of the body never reaches the
local visitor with a dead base. -/
theorem rwVisitRvalue_safe {body : Body} {r : Rvalue}
    (hwf : wfBody body = true)
    (hq : ∀ q ∈ placesOfRvalue r, q ∈ placesOfBody body)
    (hesc : ∀ l ∈ escVisitRvalue r, l ∈ escapingLocals body) :
    ∀ l ∈ (rwVisitRvalue (bodyMap body) r).2, l ∉ deadBases (bodyMap body) := by
  intro l hl hdead
  cases r with
  | use op =>
      simp only [rwVisitRvalue] at hl
      exact rwVisitOperand_safe hwf (fun q hq' => hq q hq')
        (fun l' hl' => hesc l' hl') l hl hdead
  | ref q =>
      simp only [rwVisitRvalue] at hl
      obtain ⟨hnil, rfl⟩ :=
        rwVisitPlace_safe hwf (hq q (by simp [placesOfRvalue])) l hl hdead
      have hq0 : q.base ∈ escVisitRvalue (Rvalue.ref q) := by
        show q.base ∈ if q.isIndirect = true then escSuperRvalue (Rvalue.ref q) else [q.base]
        rw [isIndirect_false_of_nil hnil]
        simp
      exact absurd hdead (not_dead_of_escaping (hesc _ hq0))
  | discriminant q =>
      simp only [rwVisitRvalue] at hl
      obtain ⟨hnil, rfl⟩ :=
        rwVisitPlace_safe hwf (hq q (by simp [placesOfRvalue])) l hl hdead
      exact absurd hdead (not_dead_of_escaping (hesc _ (mem_escVisitPlace_bare hnil)))
  | aggregate ops =>
      simp only [rwVisitRvalue, rwVisitOperands] at hl
      rw [List.mem_flatMap] at hl
      obtain ⟨op, hop, hl⟩ := hl
      refine rwVisitOperand_safe hwf ?_ ?_ l hl hdead
      · intro q hq'
        refine hq q ?_
        unfold placesOfRvalue
        exact List.mem_flatMap.mpr ⟨op, hop, hq'⟩
      · intro l' hl'
        exact hesc l' (List.mem_flatMap.mpr ⟨op, hop, hl'⟩)
  | other ops =>
      simp only [rwVisitRvalue, rwVisitOperands] at hl
      rw [List.mem_flatMap] at hl
      obtain ⟨op, hop, hl⟩ := hl
      refine rwVisitOperand_safe hwf ?_ ?_ l hl hdead
      · intro q hq'
        refine hq q ?_
        unfold placesOfRvalue
        exact List.mem_flatMap.mpr ⟨op, hop, hq'⟩
      · intro l' hl'
        exact hesc l' (List.mem_flatMap.mpr ⟨op, hop, hl'⟩)

/-- The rewrite of a statement of the body never reaches the local visitor
with a dead base: field-headed places on dead bases are replaced, the
special expansion rules suppress the generic visit, and every place the
generic visit does reach has an escaping (hence live) base. -/
theorem rwVisitStatement_safe {body : Body} {bb : BasicBlockData} {s : StatementKind}
    (hwf : wfBody body = true) (hbb : bb ∈ body.basicBlocks) (hs : s ∈ bb.statements) :
    ∀ l ∈ (rwVisitStatement (bodyMap body) s).visited, l ∉ deadBases (bodyMap body) := by
  have hplace : ∀ q ∈ placesOfStatement s, q ∈ placesOfBody body :=
    fun q hq => mem_placesOfBody_of_stmt hbb hs hq
  have hescs : ∀ l ∈ escVisitStatement s, l ∈ escapingLocals body :=
    escStatement_subset body bb s hbb hs
  intro l hl hdead
  match s with
  | .storageLive l₀ =>
      cases hfo : fragmentsOpt (bodyMap body) l₀ <;>
        simp [rwVisitStatement, hfo] at hl
  | .storageDead l₀ =>
      cases hfo : fragmentsOpt (bodyMap body) l₀ <;>
        simp [rwVisitStatement, hfo] at hl
  | .nop => simp [rwVisitStatement, rwGenericStatement] at hl
  | .setDiscriminant p v =>
      simp only [rwVisitStatement, rwGenericStatement] at hl
      obtain ⟨hnil, rfl⟩ :=
        rwVisitPlace_safe hwf (hplace p (by simp [placesOfStatement])) l hl hdead
      exact absurd hdead
        (not_dead_of_escaping (hescs _ (mem_escVisitPlace_bare hnil)))
  | .deinit p =>
      cases hA : p.asLocal with
      | some l₀ =>
          cases hfo : fragmentsOpt (bodyMap body) l₀ with
          | some fs => simp [rwVisitStatement, hA, hfo] at hl
          | none =>
              simp only [rwVisitStatement, hA, hfo, rwGenericStatement] at hl
              obtain ⟨hnil, rfl⟩ :=
                rwVisitPlace_safe hwf (hplace p (by simp [placesOfStatement])) l hl hdead
              rw [asLocal_some_of_nil hnil] at hA
              obtain rfl := Option.some.inj hA
              obtain ⟨fs, hfs⟩ := fragmentsOpt_some_of_dead hdead
              rw [hfs] at hfo
              cases hfo
      | none =>
          simp only [rwVisitStatement, hA, rwGenericStatement] at hl
          obtain ⟨hnil, rfl⟩ :=
            rwVisitPlace_safe hwf (hplace p (by simp [placesOfStatement])) l hl hdead
          rw [asLocal_some_of_nil hnil] at hA
          cases hA
  | .assign p r =>
      -- the rvalue part of the generic visit is always safe
      have hrv : ∀ l' ∈ (rwVisitRvalue (bodyMap body) r).2,
          l' ∉ deadBases (bodyMap body) := by
        refine rwVisitRvalue_safe hwf ?_ ?_
        · intro q hq'
          exact hplace q (List.mem_cons_of_mem _ hq')
        · intro l' hl'
          exact hescs l' (escVisitRvalue_subset_assign p r l' hl')
      -- a bare lhs with a dead base contradicts an empty fragment entry
      have hbare : ∀ l₀, p.asLocal = some l₀ →
          fragmentsOpt (bodyMap body) l₀ = none →
          l ∈ (rwVisitPlace (bodyMap body) p).2 → False := by
        intro l₀ hA hfo hl'
        obtain ⟨hnil, rfl⟩ :=
          rwVisitPlace_safe hwf (hplace p (List.mem_cons_self _ _)) l hl' hdead
        rw [asLocal_some_of_nil hnil] at hA
        obtain rfl := Option.some.inj hA
        obtain ⟨fs, hfs⟩ := fragmentsOpt_some_of_dead hdead
        rw [hfs] at hfo
        cases hfo
      -- a non-bare lhs never reaches the visitor bare
      have hnotbare : p.asLocal = none →
          l ∈ (rwVisitPlace (bodyMap body) p).2 → False := by
        intro hA hl'
        obtain ⟨hnil, rfl⟩ :=
          rwVisitPlace_safe hwf (hplace p (List.mem_cons_self _ _)) l hl' hdead
        rw [asLocal_some_of_nil hnil] at hA
        cases hA
      -- a bare lhs whose assignment is not one of the expandable shapes is
      -- escaping, contradicting deadness
      have hbadrv : (∀ op, r ≠ .use op) → (∀ ops, r ≠ .aggregate ops) →
          l ∈ (rwVisitPlace (bodyMap body) p).2 → False := by
        intro hru hra hl'
        obtain ⟨hnil, rfl⟩ :=
          rwVisitPlace_safe hwf (hplace p (List.mem_cons_self _ _)) l hl' hdead
        have hq0 : p.base ∈ escVisitAssign p r := by
          unfold escVisitAssign
          cases hA : p.asLocal <;> cases r <;>
            first
              | exact absurd rfl (hru _)
              | exact absurd rfl (hra _)
              | exact List.mem_append_left _ (mem_escVisitPlace_bare hnil)
        exact absurd hdead (not_dead_of_escaping (hescs _ hq0))
      match r with
      | .aggregate ops =>
          cases hA : p.asLocal with
          | some l₀ =>
              cases hfo : fragmentsOpt (bodyMap body) l₀ with
              | some fs => simp [rwVisitStatement, hA, hfo] at hl
              | none =>
                  simp only [rwVisitStatement, hA, hfo, rwGenericStatement] at hl
                  rcases List.mem_append.mp hl with hl | hl
                  · exact hbare l₀ hA hfo hl
                  · exact hrv l hl hdead
          | none =>
              simp only [rwVisitStatement, hA, rwGenericStatement] at hl
              rcases List.mem_append.mp hl with hl | hl
              · exact hnotbare hA hl
              · exact hrv l hl hdead
      | .use (.const c) =>
          cases hA : p.asLocal with
          | some l₀ =>
              cases hfo : fragmentsOpt (bodyMap body) l₀ with
              | some fs => simp [rwVisitStatement, hA, hfo] at hl
              | none =>
                  simp only [rwVisitStatement, hA, hfo, rwGenericStatement] at hl
                  rcases List.mem_append.mp hl with hl | hl
                  · exact hbare l₀ hA hfo hl
                  · exact hrv l hl hdead
          | none =>
              simp only [rwVisitStatement, hA, rwGenericStatement] at hl
              rcases List.mem_append.mp hl with hl | hl
              · exact hnotbare hA hl
              · exact hrv l hl hdead
      | .use (.copy rq) =>
          cases hA : p.asLocal with
          | some l₀ =>
              cases hfo : fragmentsOpt (bodyMap body) l₀ with
              | some fs => simp [rwVisitStatement, hA, hfo] at hl
              | none =>
                  simp only [rwVisitStatement, hA, hfo, rwGenericStatement] at hl
                  rcases List.mem_append.mp hl with hl | hl
                  · exact hbare l₀ hA hfo hl
                  · exact hrv l hl hdead
          | none =>
              simp only [rwVisitStatement, hA, rwGenericStatement] at hl
              rcases List.mem_append.mp hl with hl | hl
              · exact hnotbare hA hl
              · exact hrv l hl hdead
      | .use (.move rq) =>
          cases hA : p.asLocal with
          | some l₀ =>
              cases hfo : fragmentsOpt (bodyMap body) l₀ with
              | some fs => simp [rwVisitStatement, hA, hfo] at hl
              | none =>
                  simp only [rwVisitStatement, hA, hfo, rwGenericStatement] at hl
                  rcases List.mem_append.mp hl with hl | hl
                  · exact hbare l₀ hA hfo hl
                  · exact hrv l hl hdead
          | none =>
              simp only [rwVisitStatement, hA, rwGenericStatement] at hl
              rcases List.mem_append.mp hl with hl | hl
              · exact hnotbare hA hl
              · exact hrv l hl hdead
      | .ref q =>
          simp only [rwVisitStatement, rwGenericStatement] at hl
          rcases List.mem_append.mp hl with hl | hl
          · exact hbadrv (fun op h => by cases h) (fun ops h => by cases h) hl
          · exact hrv l hl hdead
      | .discriminant q =>
          simp only [rwVisitStatement, rwGenericStatement] at hl
          rcases List.mem_append.mp hl with hl | hl
          · exact hbadrv (fun op h => by cases h) (fun ops h => by cases h) hl
          · exact hrv l hl hdead
      | .other ops =>
          simp only [rwVisitStatement, rwGenericStatement] at hl
          rcases List.mem_append.mp hl with hl | hl
          · exact hbadrv (fun op h => by cases h) (fun ops h => by cases h) hl
          · exact hrv l hl hdead

/-- The rewrite of a terminator of the body never reaches the local
visitor with a dead base. -/
theorem rwVisitTerminator_safe {body : Body} {bb : BasicBlockData}
    (hwf : wfBody body = true) (hbb : bb ∈ body.basicBlocks) :
    ∀ l ∈ (rwVisitTerminator (bodyMap body) bb.terminator).2,
      l ∉ deadBases (bodyMap body) := by
  have hplace : ∀ q ∈ placesOfTerminator bb.terminator, q ∈ placesOfBody body :=
    fun q hq => mem_placesOfBody_of_term hbb hq
  have hesct : ∀ l ∈ escVisitTerminator bb.terminator, l ∈ escapingLocals body :=
    escTerminator_subset body bb hbb
  intro l hl hdead
  cases ht : bb.terminator with
  | goto t => rw [ht] at hl; simp [rwVisitTerminator] at hl
  | ret => rw [ht] at hl; simp [rwVisitTerminator] at hl
  | switchInt dsc ts =>
      rw [ht] at hl
      simp only [rwVisitTerminator] at hl
      refine rwVisitOperand_safe hwf ?_ ?_ l hl hdead
      · intro q hq'
        refine hplace q ?_
        rw [ht]
        exact hq'
      · intro l' hl'
        refine hesct l' ?_
        rw [ht]
        exact hl'
  | drop p t =>
      rw [ht] at hl
      simp only [rwVisitTerminator] at hl
      obtain ⟨hnil, rfl⟩ :=
        rwVisitPlace_safe hwf (hplace p (by rw [ht]; exact List.mem_cons_self _ _))
          l hl hdead
      have hq0 : p.base ∈ escVisitTerminator (Terminator.drop p t) := by
        show p.base ∈
          if p.isIndirect = true then escSuperTerminator (Terminator.drop p t) else [p.base]
        rw [isIndirect_false_of_nil hnil]
        simp
      refine absurd hdead (not_dead_of_escaping (hesct _ ?_))
      rw [ht]
      exact hq0
  | dropAndReplace p v t => exact wf_no_dropAndReplace hwf hbb p v t ht
  | call f args dest t =>
      rw [ht] at hl
      simp only [rwVisitTerminator] at hl
      rcases List.mem_append.mp hl with hl | hl
      · rcases List.mem_append.mp hl with hl | hl
        · -- the function operand
          refine rwVisitOperand_safe hwf ?_ ?_ l hl hdead
          · intro q hq'
            refine hplace q ?_
            rw [ht]
            unfold placesOfTerminator
            exact List.mem_append_left _ (List.mem_append_left _ hq')
          · intro l' hl'
            refine hesct l' ?_
            rw [ht]
            show l' ∈ escVisitOperand f ++ args.flatMap escVisitOperand ++ escVisitPlace dest
            exact List.mem_append_left _ (List.mem_append_left _ hl')
        · -- the argument operands
          simp only [rwVisitOperands] at hl
          rw [List.mem_flatMap] at hl
          obtain ⟨op, hop, hl⟩ := hl
          refine rwVisitOperand_safe hwf ?_ ?_ l hl hdead
          · intro q hq'
            refine hplace q ?_
            rw [ht]
            unfold placesOfTerminator
            exact List.mem_append_left _
              (List.mem_append_right _ (List.mem_flatMap.mpr ⟨op, hop, hq'⟩))
          · intro l' hl'
            refine hesct l' ?_
            rw [ht]
            show l' ∈ escVisitOperand f ++ args.flatMap escVisitOperand ++ escVisitPlace dest
            exact List.mem_append_left _
              (List.mem_append_right _ (List.mem_flatMap.mpr ⟨op, hop, hl'⟩))
      · -- the destination place
        obtain ⟨hnil, rfl⟩ :=
          rwVisitPlace_safe hwf
            (hplace dest (by
              rw [ht]
              unfold placesOfTerminator
              exact List.mem_append_right _ (List.mem_cons_self _ _)))
            l hl hdead
        refine absurd hdead (not_dead_of_escaping (hesct _ ?_))
        rw [ht]
        show dest.base ∈ escVisitOperand f ++ args.flatMap escVisitOperand ++ escVisitPlace dest
        exact List.mem_append_right _ (mem_escVisitPlace_bare hnil)

/-- C1, counterexample to the claim as stated: on the body `exRepack`
(`y = copy x.0; x = (copy x.0, copy x.1)`), after the pass finishes the
output still contains an instruction with a place based at the dead
variable `1` — the aggregate expansion stages its operands without
rewriting them — and `1` is not exempted by the literal-constant rule. -/
def exRepack : Body :=
  { localDecls := [⟨tb, true, 0, none⟩, ⟨tpair, true, 1, none⟩, ⟨tb, true, 2, none⟩],
    argCount := 0,
    basicBlocks := [⟨[
      .assign ⟨2, []⟩ (.use (.copy ⟨1, [.field 0]⟩)),
      .assign ⟨1, []⟩ (.aggregate [.copy ⟨1, [.field 0]⟩, .copy ⟨1, [.field 1]⟩])], .ret⟩],
    varDebugInfo := [] }

/-- C1, counterexample: the claim's output-side reading fails — a place
based at dead local `1` survives in the rewritten instructions although
`1` was never removed from the dead set by the literal-constant rule. -/
theorem C1_counterexample :
    (⟨1, [PlaceElem.field 0]⟩ : Place) ∈
      placesOfStatement (((runPass exRepack).basicBlocks.getD 0 default).statements.getD 1 default) ∧
    1 ∈ deadBases (bodyMap exRepack) ∧
    1 ∉ rwBodyRemoved (bodyMap exRepack) exRepack := by
  refine ⟨by decide, by decide, by decide⟩

/-- C1, amended: on a well-formed body the rewriter's `visit_local`
assertion never fires — no local reached through the generic rewrite of
the body's instructions and terminators is in the dead-variable set (so in
particular no rewritten place that the traversal visits is based at a dead
variable); instructions staged by the aggregate and copy/move expansion
rules, which the traversal never revisits, may however still mention dead
bases in their operands. -/
theorem C1_assertion_never_fires (body : Body) (hwf : wfBody body = true) :
    ∀ l ∈ rwBodyVisited (bodyMap body) body, l ∉ deadBases (bodyMap body) := by
  intro l hl
  unfold rwBodyVisited at hl
  rw [List.mem_flatMap] at hl
  obtain ⟨bb, hbb, hl⟩ := hl
  rcases List.mem_append.mp hl with hl | hl
  · rw [List.mem_flatMap] at hl
    obtain ⟨s, hs, hl⟩ := hl
    exact rwVisitStatement_safe hwf hbb hs l hl
  · exact rwVisitTerminator_safe hwf hbb l hl

/-- Witness for the amended C1 at the end-to-end example body. -/
theorem C1_assertion_never_fires_witness :
    wfBody exPair = true ∧
    ∀ l ∈ rwBodyVisited (bodyMap exPair) exPair, l ∉ deadBases (bodyMap exPair) :=
  ⟨by decide, C1_assertion_never_fires exPair (by decide)⟩
